import Mathlib

/-!
Verification of the rollback disjoint-set union and the offline dynamic
connectivity solver (src/dsu.py).

The Python classes `RollbackDSU` and `OfflineDynamicConnectivity` are embedded
shallowly: the mutable object state becomes an explicit `DSU` record threaded
through the operations, Python lists become Lean `List`s, and the unbounded
`while`-loops (`find`, `rollback_to`) become fuel-based recursions whose fuel
is large enough on every state the program can actually reach (the fuel cases
are discussed at each definition).  Python integers are `Int` where they can
in principle go negative (sizes, because of the arithmetic in `rollback`) and
`Nat` where the source only ever holds indices and times.

Python's `history` list is appended at the end and popped from the end; we
keep the list reversed (most recent entry first), which is the same stack.
-/

/-- One step per fuel unit of `RollbackDSU.find`'s
`while self.parent[x] != x: x = self.parent[x]` loop.  Out-of-range indices
(where Python would raise `IndexError`) are treated as self-parented; every
claim below restricts to in-range elements, where this default is never
consulted. -/
def findFuel (p : List Nat) : Nat → Nat → Nat
  | 0, x => x
  | fuel + 1, x => if p.getD x x = x then x else findFuel p fuel (p.getD x x)

/-- State of a `RollbackDSU` object: `parent`, `size` and the undo stack
`history` (most recent entry first; `none` is Python's `None` no-op entry,
`some (node, old_parent, old_size)` the tuple pushed by a merging union). -/
structure DSU where
  parent : List Nat
  size : List Int
  history : List (Option (Nat × Nat × Int))
deriving DecidableEq

/-- `RollbackDSU.__init__`: each element its own parent, all sizes 1,
empty history. -/
def DSU.init (n : Nat) : DSU :=
  { parent := List.range n, size := List.replicate n 1, history := [] }

/-- `RollbackDSU.find`: follow parent pointers to the root.  Fuel
`parent.length` suffices on every reachable state because the parent array
encodes a forest there, so chains have fewer than `parent.length` steps. -/
def DSU.find (d : DSU) (x : Nat) : Nat :=
  findFuel d.parent d.parent.length x

/-- `RollbackDSU.union`: unite the components of `x` and `y`, push one history
entry (always exactly one, also for the no-op case), return whether a merge
happened.  The smaller root is absorbed into the larger (union by size). -/
def DSU.union (d : DSU) (x y : Nat) : DSU × Bool :=
  let rootx0 := d.find x
  let rooty0 := d.find y
  if rootx0 = rooty0 then
    ({ d with history := none :: d.history }, false)
  else
    let swap := d.size.getD rootx0 0 < d.size.getD rooty0 0
    let rootx := if swap then rooty0 else rootx0
    let rooty := if swap then rootx0 else rooty0
    ({ parent := d.parent.set rooty rootx,
       size := d.size.set rootx (d.size.getD rootx 0 + d.size.getD rooty 0),
       history := some (rooty, d.parent.getD rooty 0, d.size.getD rootx 0) :: d.history },
     true)

/-- `RollbackDSU.rollback`: pop the last history entry and restore the old
parent pointer.  The `root2 ≠ node` branch mirrors the Python size-restoring
branch verbatim (including its `self.size[node] - old_size + 1` arithmetic);
the development proves it is dead code on reachable states. -/
def DSU.rollback (d : DSU) : DSU :=
  match d.history with
  | [] => d
  | none :: rest => { d with history := rest }
  | some (node, oldParent, oldSize) :: rest =>
    let p2 := d.parent.set node oldParent
    let root2 := if oldParent ≠ node then findFuel p2 p2.length oldParent else node
    if root2 ≠ node then
      let s1 := d.size.set root2 oldSize
      { parent := p2,
        size := s1.set node (s1.getD node 0 - oldSize + 1),
        history := rest }
    else
      { parent := p2, size := d.size, history := rest }

/-- `RollbackDSU.connected`: same root test. -/
def DSU.connected (d : DSU) (x y : Nat) : Bool :=
  d.find x = d.find y

/-- `RollbackDSU.get_checkpoint`: the current history length. -/
def DSU.get_checkpoint (d : DSU) : Nat :=
  d.history.length

/-- One fuel-counted iteration of `RollbackDSU.rollback_to`'s
`while len(self.history) > checkpoint` loop. -/
def rollbackLoop (c : Nat) : Nat → DSU → DSU
  | 0, d => d
  | fuel + 1, d => if c < d.history.length then rollbackLoop c fuel d.rollback else d

/-- `RollbackDSU.rollback_to`: rollback until the history length is at most
`checkpoint`.  Each loop iteration pops exactly one entry, so fuel equal to
the initial history length always suffices. -/
def DSU.rollback_to (d : DSU) (checkpoint : Nat) : DSU :=
  rollbackLoop checkpoint d.history.length d

/-- An entry of `OfflineDynamicConnectivity.operations`:
`('edge', u, v, time_start, time_end)` or `('query', u, v, time, query_id)`. -/
inductive ODCOp where
  | edge (u v tstart tend : Nat)
  | query (u v t qid : Nat)
deriving DecidableEq

/-- Python `op[0] == 'query'` test. -/
def ODCOp.isQuery : ODCOp → Bool
  | .query _ _ _ _ => true
  | _ => false

/-- The `op[3]` field read by `solve`'s timeline-bound computation:
`time_start` for edges, `time` for queries. -/
def ODCOp.time3 : ODCOp → Nat
  | .edge _ _ tstart _ => tstart
  | .query _ _ t _ => t

/-- State of an `OfflineDynamicConnectivity` object before solving. -/
structure ODC where
  n : Nat
  operations : List ODCOp
deriving DecidableEq

/-- `OfflineDynamicConnectivity.__init__`. -/
def ODC.mk0 (n : Nat) : ODC :=
  { n := n, operations := [] }

/-- `OfflineDynamicConnectivity.add_edge`. -/
def ODC.add_edge (s : ODC) (u v tstart tend : Nat) : ODC :=
  { s with operations := s.operations ++ [ODCOp.edge u v tstart tend] }

/-- `OfflineDynamicConnectivity.add_query`: the query id is the number of
query operations already registered. -/
def ODC.add_query (s : ODC) (u v t : Nat) : ODC :=
  { s with operations :=
      s.operations ++ [ODCOp.query u v t (s.operations.filter ODCOp.isQuery).length] }

/-- The `(op[1], op[2], op[3], op[4])` extraction of queries in `solve`. -/
def getQueries (ops : List ODCOp) : List (Nat × Nat × Nat × Nat) :=
  ops.filterMap fun op =>
    match op with
    | .query u v t q => some (u, v, t, q)
    | _ => none

/-- The `(op[1], op[2], op[3], op[4])` extraction of edges in `solve`. -/
def getEdges (ops : List ODCOp) : List (Nat × Nat × Nat × Nat) :=
  ops.filterMap fun op =>
    match op with
    | .edge u v tstart tend => some (u, v, tstart, tend)
    | _ => none

/-- The timeline upper bound computed by `solve`:
`max(op[3] for op in self.operations) + 1`.  Folding `max` from 0 agrees with
Python's `max` on every non-empty operation list (Python raises on an empty
one; `solve` is only ever specified on non-empty batches). -/
def ODC.timelineBound (s : ODC) : Nat :=
  (s.operations.map ODCOp.time3).foldl Nat.max 0 + 1

/-- `OfflineDynamicConnectivity._solve_recursive`.  The mutated `self.answers`
and the DSU object are threaded explicitly and returned.  The fuel argument
only cuts off recursions with `time_right ≤ time_left`, which `solve` never
produces: every real call has `time_right - time_left ≥ 1`, the recursive case
shrinks that difference by at least one, and `solve` passes fuel equal to the
whole timeline width. -/
def solveRec (queries : List (Nat × Nat × Nat × Nat)) :
    Nat → List (Nat × Nat × Nat × Nat) → List Nat → DSU → Nat → Nat → List Bool →
    DSU × List Bool
  | 0, _, _, dsu, _, _, answers => (dsu, answers)
  | fuel + 1, edges, queryIndices, dsu, timeLeft, timeRight, answers =>
    if queryIndices = [] then
      (dsu, answers)
    else if timeRight - timeLeft = 1 then
      (dsu,
       queryIndices.foldl
         (fun ans qi =>
           match queries.getD qi (0, 0, 0, 0) with
           | (u, v, t, qid) =>
             if t = timeLeft then ans.set qid (dsu.connected u v) else ans)
         answers)
    else
      let timeMid := (timeLeft + timeRight) / 2
      let checkpoint := dsu.get_checkpoint
      let dsu1 := edges.foldl
        (fun d e =>
          match e with
          | (u, v, start, stop) =>
            if start ≤ timeLeft ∧ timeMid ≤ stop then (d.union u v).1 else d)
        dsu
      let leftQueries := queryIndices.filter
        (fun qi => (queries.getD qi (0, 0, 0, 0)).2.2.1 < timeMid)
      let rightQueries := queryIndices.filter
        (fun qi => ¬ ((queries.getD qi (0, 0, 0, 0)).2.2.1 < timeMid))
      let leftEdges := edges.filter
        (fun e => ¬ (e.2.2.1 ≤ timeLeft ∧ timeMid ≤ e.2.2.2))
      let rightEdges := edges.filter
        (fun e => ¬ (e.2.2.1 ≤ timeLeft ∧ timeMid ≤ e.2.2.2))
      match solveRec queries fuel leftEdges leftQueries dsu1 timeLeft timeMid answers with
      | (dsu2, ans2) =>
        match solveRec queries fuel rightEdges rightQueries dsu2 timeMid timeRight ans2 with
        | (dsu3, ans3) => (dsu3.rollback_to checkpoint, ans3)

/-- `OfflineDynamicConnectivity.solve`.  Returns the final DSU object together
with `self.answers` (Python returns only the answers; the DSU is kept so that
its terminal state can be stated). -/
def ODC.solve (s : ODC) : DSU × List Bool :=
  let queries := getQueries s.operations
  let edges := getEdges s.operations
  let answers := List.replicate queries.length false
  solveRec queries s.timelineBound edges (List.range queries.length)
    (DSU.init s.n) 0 s.timelineBound answers

/-- The input batch of `demo_offline_dynamic_connectivity` and of the spec's
worked scenario: 6 nodes, edges `(0,1,[1,5))`, `(1,2,[2,4))`, `(3,4,[1,6))`,
`(2,3,[3,7))`, queries `(0,2,1)`, `(0,2,3)`, `(0,4,3)`, `(1,4,4)`, `(0,5,2)`. -/
def demoODC : ODC :=
  (((((((((ODC.mk0 6).add_edge 0 1 1 5).add_edge 1 2 2 4).add_edge 3 4 1 6).add_edge
      2 3 3 7).add_query 0 2 1).add_query 0 2 3).add_query 0 4 3).add_query
      1 4 4).add_query 0 5 2

/-- Modelled from the spec: the timeline bound the spec demands, namely
`1 + max(over all edges: validUntil; over all queries: t)` (§4.2: "the correct
bound is `1 + max(over all edges: validUntil; over all queries: t)`").  It is
stated only to be compared with the bound the code actually computes. -/
def specTimelineBound (s : ODC) : Nat :=
  (s.operations.map fun op =>
    match op with
    | .edge _ _ _ tend => tend
    | .query _ _ t _ => t).foldl Nat.max 0 + 1

/-- Modelled from the spec: an edge `(u, v, validFrom, validUntil)` is active
at time `t` iff `validFrom ≤ t < validUntil`. -/
def specActiveAt (t : Nat) (e : Nat × Nat × Nat × Nat) : Bool :=
  e.2.2.1 ≤ t ∧ t < e.2.2.2

/-- One expansion round of a reachable-vertex list along a list of undirected
edges (endpoint pairs). -/
def reachExpand (pairs : List (Nat × Nat)) (s : List Nat) : List Nat :=
  pairs.foldl
    (fun acc pr =>
      if pr.1 ∈ acc ∧ pr.2 ∉ acc then acc ++ [pr.2]
      else if pr.2 ∈ acc ∧ pr.1 ∉ acc then acc ++ [pr.1]
      else acc)
    s

/-- Iterated expansion; `n` rounds saturate reachability among `n` nodes. -/
def reachIter : Nat → List (Nat × Nat) → List Nat → List Nat
  | 0, _, s => s
  | k + 1, pairs, s => reachIter k pairs (reachExpand pairs s)

/-- Modelled from the spec: `u` and `v` are connected at time `t` iff a path
of edges active at `t` joins them ("the union of the edges active at that
leaf's time"). -/
def specActiveConnected (edges : List (Nat × Nat × Nat × Nat)) (n t u v : Nat) : Bool :=
  v ∈ reachIter n ((edges.filter (specActiveAt t)).map fun e => (e.1, e.2.1)) [u]

/-- The number of elements whose `find`-root is `r`. -/
def componentSize (d : DSU) (r : Nat) : Nat :=
  ((List.range d.parent.length).filter fun i => d.find i = r).length

/-- The root map induced by a parent array: follow parent pointers with fuel
equal to the array length.  `DSU.find` is exactly `rootOf` of the parent
array. -/
def rootOf (p : List Nat) (z : Nat) : Nat :=
  findFuel p p.length z

/-- Structural invariant of a parent array: in-range entries stay in range,
and some measure strictly decreases along every non-root parent pointer (the
array encodes a forest, so pointer chasing terminates). -/
def ParentInv (p : List Nat) : Prop :=
  (∀ i, i < p.length → p.getD i i < p.length) ∧
  ∃ m : Nat → Nat, ∀ i, i < p.length → p.getD i i ≠ i → m (p.getD i i) < m i

/-- Invariant of a history entry: a merge entry records an absorbed node that
was a root when it was pushed (`old_parent = node`) and is in range. -/
def HistEntryOK (n : Nat) : Option (Nat × Nat × Int) → Prop
  | none => True
  | some (a, b, _) => b = a ∧ a < n

/-- Invariant of a reachable `RollbackDSU` state. -/
def DSUInv (n : Nat) (d : DSU) : Prop :=
  d.parent.length = n ∧ d.size.length = n ∧ ParentInv d.parent ∧
  ∀ e ∈ d.history, HistEntryOK n e

/-- The state-changing and observing operations of the `RollbackDSU` API. -/
inductive DOp where
  | uni (x y : Nat)
  | rb
  | rbTo (c : Nat)
  | fnd (x : Nat)
  | conn (x y : Nat)
deriving DecidableEq

/-- Effect of one API call on the state (`find` and `connected` do not mutate:
there is no path compression). -/
def applyOp (d : DSU) : DOp → DSU
  | .uni x y => (d.union x y).1
  | .rb => d.rollback
  | .rbTo c => d.rollback_to c
  | .fnd _ => d
  | .conn _ _ => d

/-- Effect of a call sequence. -/
def applyOps (d : DSU) (l : List DOp) : DSU :=
  l.foldl applyOp d

/-- A call is valid when its element arguments are in range (out-of-range
arguments raise `IndexError` in Python). -/
def ValidOp (n : Nat) : DOp → Prop
  | .uni x y => x < n ∧ y < n
  | .fnd x => x < n
  | .conn x y => x < n ∧ y < n
  | .rb => True
  | .rbTo _ => True

/-- States of a `RollbackDSU` reachable from construction by valid calls. -/
def Reachable (n : Nat) (d : DSU) : Prop :=
  ∃ l : List DOp, (∀ op ∈ l, ValidOp n op) ∧ applyOps (DSU.init n) l = d

/-- A registered operation is a well-formed query: a query's endpoints are in
range and distinct.  (Edges are unconstrained by this check.) -/
def queryOK (n : Nat) : ODCOp → Bool
  | .query u v _ _ => decide (u < n) && decide (v < n) && decide (u ≠ v)
  | .edge _ _ _ _ => true

/-- C1: on the spec's 6-node scenario the code does NOT return the claimed
answers `[false, true, true, false, false]`: it returns
`[false, true, true, true, false]`, answering the query `(1,4,4)` with `true`
because the edge `(1,2,[2,4))`, merged for the left half `[2,3)` of the
segment `[2,5)`, is still merged when the leaf `[4,5)` is evaluated. -/
theorem c1_demo_solve_answers :
    (demoODC.solve).2 = [false, true, true, true, false] ∧
    (demoODC.solve).2 ≠ [false, true, true, false, false] := by
  decide

/-- C2: the disjoint-set state consulted at a leaf is NOT always the union of
the edges active at that leaf's time: on the demo batch the code answers the
query with id 3 (`(1,4)` at time 4) with `true`, while under the edges active
at time 4 (edge `(1,2,[2,4))` is expired) nodes 1 and 4 are not connected. -/
theorem c2_leaf_state_not_exact :
    (demoODC.solve).2.getD 3 false = true ∧
    specActiveConnected (getEdges demoODC.operations) 6 4 1 4 = false := by
  decide

/-- C3: the round-trip law fails: after `union(0,1)` and one `rollback` on a
fresh 2-element `RollbackDSU`, the parent array is restored but the size array
is `[2, 1]`, not its pre-union value `[1, 1]` (the rollback never restores the
surviving root's size). -/
theorem c3_round_trip_fails :
    (((DSU.init 2).union 0 1).1.rollback).parent = (DSU.init 2).parent ∧
    (((DSU.init 2).union 0 1).1.rollback).size ≠ (DSU.init 2).size := by
  decide

/-- C4: the timeline bound used by `solve` reads `op[3]`, which is
`time_start` for edges, so on the demo batch it computes `5`, while the bound
claimed by the spec (`1 + max(validUntil over edges, t over queries)`)
is `8`. -/
theorem c4_timeline_bound_mismatch :
    demoODC.timelineBound = 5 ∧ specTimelineBound demoODC = 8 ∧
    demoODC.timelineBound ≠ specTimelineBound demoODC := by
  decide

/-- C5: the size half of the invariant fails: after `union(0,1)` followed by
`rollback` on a fresh 2-element `RollbackDSU`, element 0 is again a root of a
singleton component (`find 0 = 0`, component size 1), but `size[0] = 2`. -/
theorem c5_size_invariant_fails :
    ((((DSU.init 2).union 0 1).1.rollback).find 0 = 0) ∧
    componentSize (((DSU.init 2).union 0 1).1.rollback) 0 = 1 ∧
    (((DSU.init 2).union 0 1).1.rollback).size.getD 0 0 = 2 := by
  decide

/-- C7 counterexample: calling `rollback_to` with a checkpoint larger than the
history length (here 5 > 0) is a silent no-op that returns the state
unchanged, not a reported precondition violation. -/
theorem c7_rollback_to_counterexample :
    (DSU.init 1).rollback_to 5 = DSU.init 1 := by
  decide

/-- C9 counterexample: with zero edges, the self-query `(0,0,0)` is answered
`true` (both endpoints have the same root), not `false` as claimed. -/
theorem c9_self_query_counterexample :
    ((ODC.mk0 1).add_query 0 0 0).solve.2 = [true] := by
  decide

/-- Reading a set position with `getD`. -/
theorem list_getD_set_self {α : Type} (l : List α) (i : Nat) (v d : α)
    (h : i < l.length) : (l.set i v).getD i d = v := by
  have h2 : i < (l.set i v).length := by simpa using h
  rw [List.getD_eq_getElem _ _ h2, List.getElem_set]
  simp

/-- Reading a different position than the set one with `getD`. -/
theorem list_getD_set_ne {α : Type} (l : List α) (i j : Nat) (v d : α)
    (h : i ≠ j) : (l.set i v).getD j d = l.getD j d := by
  simp [List.getD_eq_getElem?_getD, List.getElem?_set, h]

/-- `getD` at an in-range position ignores the default. -/
theorem list_getD_default {α : Type} (l : List α) (i : Nat) (d1 d2 : α)
    (h : i < l.length) : l.getD i d1 = l.getD i d2 := by
  rw [List.getD_eq_getElem _ _ h, List.getD_eq_getElem _ _ h]

/-- Writing back the value already stored is the identity. -/
theorem list_set_getD {α : Type} (l : List α) (i : Nat) (d : α)
    (h : i < l.length) : l.set i (l.getD i d) = l := by
  rw [List.getD_eq_getElem _ _ h]
  apply List.ext_getElem (by simp)
  intro k h1 h2
  rw [List.getElem_set]
  by_cases hik : i = k
  · subst hik; simp
  · simp [hik]

/-- `getD` on `List.range`. -/
theorem list_getD_range (n i d : Nat) (h : i < n) :
    (List.range n).getD i d = i := by
  have h2 : i < (List.range n).length := by simpa using h
  rw [List.getD_eq_getElem _ _ h2, List.getElem_range]

/-- Unfolding `findFuel` at a successor fuel. -/
theorem findFuel_unfold (p : List Nat) (f z : Nat) :
    findFuel p (f + 1) z =
      if p.getD z z = z then z else findFuel p f (p.getD z z) :=
  rfl

/-- A root is a fixed point of `findFuel` for every fuel. -/
theorem findFuel_root (p : List Nat) (z : Nat) (h : p.getD z z = z) :
    ∀ f, findFuel p f z = z
  | 0 => rfl
  | f + 1 => by rw [findFuel_unfold, if_pos h]

/-- Unfolding one leading step of `findFuel` at a non-root. -/
theorem findFuel_succ (p : List Nat) (z f : Nat) (h : p.getD z z ≠ z) :
    findFuel p (f + 1) z = findFuel p f (p.getD z z) := by
  rw [findFuel_unfold, if_neg h]

/-- Unfolding one trailing step of `findFuel`. -/
theorem findFuel_last (p : List Nat) (f z : Nat) :
    findFuel p (f + 1) z =
      if p.getD (findFuel p f z) (findFuel p f z) = findFuel p f z then
        findFuel p f z
      else p.getD (findFuel p f z) (findFuel p f z) := by
  induction f generalizing z with
  | zero => rw [findFuel_unfold]; rfl
  | succ f ih =>
    by_cases h : p.getD z z = z
    · rw [findFuel_root p z h (f + 1 + 1), findFuel_root p z h (f + 1), if_pos h]
    · rw [findFuel_succ p z (f + 1) h, ih (p.getD z z), findFuel_succ p z f h]

/-- Once a root is reached, extra fuel does not change the result. -/
theorem findFuel_stable (p : List Nat) (k z : Nat)
    (h : p.getD (findFuel p k z) (findFuel p k z) = findFuel p k z) :
    ∀ j, findFuel p (k + j) z = findFuel p k z
  | 0 => rfl
  | j + 1 => by
    have hj := findFuel_stable p k z h j
    rw [show k + (j + 1) = (k + j) + 1 from rfl, findFuel_last, hj, if_pos h]

/-- Fuel beyond a root-reaching amount is irrelevant. -/
theorem findFuel_ge (p : List Nat) (k z f : Nat) (hf : k ≤ f)
    (h : p.getD (findFuel p k z) (findFuel p k z) = findFuel p k z) :
    findFuel p f z = findFuel p k z := by
  obtain ⟨j, rfl⟩ := Nat.exists_eq_add_of_le hf
  exact findFuel_stable p k z h j

/-- `findFuel` stays in range when the parent array maps range to range. -/
theorem findFuel_lt (p : List Nat)
    (hr : ∀ i, i < p.length → p.getD i i < p.length) :
    ∀ f z, z < p.length → findFuel p f z < p.length
  | 0, _, hz => hz
  | f + 1, z, hz => by
    by_cases h : p.getD z z = z
    · rw [findFuel_root p z h (f + 1)]; exact hz
    · rw [findFuel_succ p z f h]
      exact findFuel_lt p hr f _ (hr z hz)

/-- In a parent array with a decreasing measure, pointer chasing from any
in-range start reaches a root in fewer than `p.length` steps (pigeonhole on
the strictly decreasing measure values of the visited nodes). -/
theorem exists_root_lt (p : List Nat) (hp : ParentInv p) (z : Nat)
    (hz : z < p.length) :
    ∃ k, k < p.length ∧
      p.getD (findFuel p k z) (findFuel p k z) = findFuel p k z := by
  obtain ⟨hr, m, hm⟩ := hp
  by_contra hcon
  push_neg at hcon
  have hlt : ∀ k, findFuel p k z < p.length := fun k => findFuel_lt p hr k z hz
  have hdec : ∀ k, k < p.length →
      m (findFuel p (k + 1) z) < m (findFuel p k z) := by
    intro k hk
    rw [findFuel_last, if_neg (hcon k hk)]
    exact hm _ (hlt k) (hcon k hk)
  have hchain : ∀ j, j ≤ p.length → ∀ i, i < j →
      m (findFuel p j z) < m (findFuel p i z) := by
    intro j
    induction j with
    | zero => intro _ i hi; omega
    | succ j ih =>
      intro hj i hij
      rcases Nat.lt_or_ge i j with h1 | h1
      · exact lt_trans (hdec j (by omega)) (ih (by omega) i h1)
      · have : i = j := by omega
        subst this
        exact hdec i (by omega)
  have hinj : Function.Injective
      (fun k : Fin (p.length + 1) => (⟨findFuel p k.val z, hlt k.val⟩ : Fin p.length)) := by
    intro a b hab
    have hab2 : findFuel p a.val z = findFuel p b.val z := by
      simpa [Fin.ext_iff] using hab
    rcases Nat.lt_trichotomy a.val b.val with h | h | h
    · have := hchain b.val (by omega) a.val h
      rw [hab2] at this
      exact absurd this (lt_irrefl _)
    · exact Fin.ext h
    · have := hchain a.val (by omega) b.val h
      rw [hab2] at this
      exact absurd this (lt_irrefl _)
  have := Fintype.card_le_of_injective _ hinj
  simp [Fintype.card_fin] at this

/-- `rootOf` lands on a root under the parent invariant. -/
theorem rootOf_isRoot (p : List Nat) (hp : ParentInv p) (z : Nat)
    (hz : z < p.length) :
    p.getD (rootOf p z) (rootOf p z) = rootOf p z := by
  obtain ⟨k, hk, hroot⟩ := exists_root_lt p hp z hz
  unfold rootOf
  rw [findFuel_ge p k z p.length (by omega) hroot]
  exact hroot

/-- `rootOf` of a root is itself. -/
theorem rootOf_root (p : List Nat) (z : Nat) (h : p.getD z z = z) :
    rootOf p z = z :=
  findFuel_root p z h p.length

/-- `rootOf` stays in range. -/
theorem rootOf_lt (p : List Nat)
    (hr : ∀ i, i < p.length → p.getD i i < p.length) (z : Nat)
    (hz : z < p.length) : rootOf p z < p.length :=
  findFuel_lt p hr p.length z hz

/-- One parent step does not change the root. -/
theorem rootOf_step (p : List Nat) (hp : ParentInv p) (z : Nat)
    (hz : z < p.length) (h : p.getD z z ≠ z) :
    rootOf p (p.getD z z) = rootOf p z := by
  obtain ⟨n, hn⟩ : ∃ n, p.length = n + 1 := by
    refine ⟨p.length - 1, ?_⟩
    omega
  have hw : p.getD z z < p.length := hp.1 z hz
  obtain ⟨k, hk, hroot⟩ := exists_root_lt p hp (p.getD z z) hw
  unfold rootOf
  rw [hn, findFuel_succ p z n h]
  rw [findFuel_ge p k (p.getD z z) n (by omega) hroot,
    findFuel_ge p k (p.getD z z) (n + 1) (by omega) hroot]

/-- Redirecting one root `ry` to another root `rx` preserves the parent
invariant (witnessed by lifting the measure of `ry`'s old tree above the
measure of `rx`). -/
theorem parentInv_set_root (p : List Nat) (hp : ParentInv p) (rx ry : Nat)
    (hrx : rx < p.length) (hry : ry < p.length)
    (hrxr : p.getD rx rx = rx) (hryr : p.getD ry ry = ry) (hne : rx ≠ ry) :
    ParentInv (p.set ry rx) := by
  obtain ⟨hr, m, hm⟩ := hp
  constructor
  · intro i hi
    rw [List.length_set] at hi ⊢
    by_cases hiy : ry = i
    · subst hiy
      rw [list_getD_set_self p ry rx ry hry]
      exact hrx
    · rw [list_getD_set_ne p ry i rx i hiy]
      exact hr i hi
  · refine ⟨fun z => if rootOf p z = ry then m z + m rx + 1 else m z, ?_⟩
    intro i hi hne2
    dsimp only
    rw [List.length_set] at hi
    by_cases hiy : ry = i
    · subst hiy
      rw [list_getD_set_self p ry rx ry hry] at hne2 ⊢
      rw [rootOf_root p rx hrxr, rootOf_root p ry hryr]
      rw [if_neg hne, if_pos rfl]
      omega
    · rw [list_getD_set_ne p ry i rx i hiy] at hne2 ⊢
      have hdec := hm i hi hne2
      have hstep := rootOf_step p ⟨hr, m, hm⟩ i hi hne2
      by_cases hri : rootOf p i = ry
      · rw [if_pos (by rw [hstep]; exact hri), if_pos hri]
        omega
      · rw [if_neg (by rw [hstep]; exact hri), if_neg hri]
        exact hdec

/-- After redirecting root `ry` to root `rx`, every element whose old root was
`rx` or `ry` has root `rx` (strong induction on the decreasing measure). -/
theorem rootOf_set_root (p : List Nat) (hp : ParentInv p) (rx ry : Nat)
    (hrx : rx < p.length) (hry : ry < p.length)
    (hrxr : p.getD rx rx = rx) (hryr : p.getD ry ry = ry) (hne : rx ≠ ry)
    (z : Nat) (hz : z < p.length)
    (hzr : rootOf p z = rx ∨ rootOf p z = ry) :
    rootOf (p.set ry rx) z = rx := by
  have hp2 : ParentInv (p.set ry rx) :=
    parentInv_set_root p hp rx ry hrx hry hrxr hryr hne
  obtain ⟨hr, m, hm⟩ := hp
  have hrxr2 : (p.set ry rx).getD rx rx = rx := by
    rw [list_getD_set_ne p ry rx rx rx (Ne.symm hne)]
    exact hrxr
  have key : ∀ N z, z < p.length → m z < N →
      (rootOf p z = rx ∨ rootOf p z = ry) → rootOf (p.set ry rx) z = rx := by
    intro N
    induction N with
    | zero => intro z _ h; omega
    | succ N ih =>
      intro z hz hmz hzr
      by_cases hzy : z = ry
      · rw [hzy]
        have h1 : (p.set ry rx).getD ry ry = rx := list_getD_set_self p ry rx ry hry
        have h2 : (p.set ry rx).getD ry ry ≠ ry := by rw [h1]; exact hne
        have hstep := rootOf_step (p.set ry rx) hp2 ry
          (by rw [List.length_set]; exact hry) h2
        rw [h1] at hstep
        rw [← hstep]
        exact rootOf_root (p.set ry rx) rx hrxr2
      · by_cases hzroot : p.getD z z = z
        · have hself : rootOf p z = z := rootOf_root p z hzroot
          rw [hself] at hzr
          rcases hzr with h | h
          · rw [h]
            exact rootOf_root (p.set ry rx) rx hrxr2
          · exact absurd h hzy
        · have hwlt : p.getD z z < p.length := hr z hz
          have hstep := rootOf_step p ⟨hr, m, hm⟩ z hz hzroot
          have hmw : m (p.getD z z) < m z := hm z hz hzroot
          have hres := ih (p.getD z z) hwlt (by omega) (by rw [hstep]; exact hzr)
          have hpz : (p.set ry rx).getD z z = p.getD z z :=
            list_getD_set_ne p ry z rx z (fun hh => hzy hh.symm)
          have hzr2 : (p.set ry rx).getD z z ≠ z := by rw [hpz]; exact hzroot
          have hstep2 := rootOf_step (p.set ry rx) hp2 z
            (by rw [List.length_set]; exact hz) hzr2
          rw [hpz] at hstep2
          rw [← hstep2]
          exact hres
  exact key (m z + 1) z hz (by omega) hzr

/-- `find` is the root map of the parent array. -/
theorem find_eq_rootOf (d : DSU) (x : Nat) : d.find x = rootOf d.parent x :=
  rfl

/-- The freshly constructed state satisfies the invariant. -/
theorem dsuInv_init (n : Nat) : DSUInv n (DSU.init n) := by
  refine ⟨by simp [DSU.init], by simp [DSU.init], ⟨?_, fun _ => 0, ?_⟩, ?_⟩
  · intro i hi
    simp only [DSU.init, List.length_range] at hi ⊢
    rw [list_getD_range n i i hi]
    exact hi
  · intro i hi hne
    simp only [DSU.init, List.length_range] at hi hne
    rw [list_getD_range n i i hi] at hne
    exact absurd rfl hne
  · intro e he
    simp [DSU.init] at he

/-- Under the invariant, `find` returns an in-range root. -/
theorem find_root_spec (n : Nat) (d : DSU) (h : DSUInv n d) (z : Nat)
    (hz : z < n) :
    d.find z < n ∧ d.parent.getD (d.find z) (d.find z) = d.find z := by
  obtain ⟨hpl, _, hpi, _⟩ := h
  rw [find_eq_rootOf]
  constructor
  · rw [← hpl]
    exact rootOf_lt d.parent hpi.1 z (by rw [hpl]; exact hz)
  · exact rootOf_isRoot d.parent hpi z (by rw [hpl]; exact hz)

/-- `union` preserves the invariant when its arguments are in range. -/
theorem union_inv (n : Nat) (d : DSU) (x y : Nat) (h : DSUInv n d)
    (hx : x < n) (hy : y < n) : DSUInv n (d.union x y).1 := by
  obtain ⟨hxlt, hxroot⟩ := find_root_spec n d h x hx
  obtain ⟨hylt, hyroot⟩ := find_root_spec n d h y hy
  obtain ⟨hpl, hsl, hpi, hh⟩ := h
  by_cases heq : d.find x = d.find y
  · simp only [DSU.union, if_pos heq]
    refine ⟨hpl, hsl, hpi, ?_⟩
    intro e he
    rcases List.mem_cons.mp he with he1 | he1
    · rw [he1]; trivial
    · exact hh e he1
  · simp only [DSU.union, if_neg heq]
    by_cases hs : d.size.getD (d.find x) 0 < d.size.getD (d.find y) 0 <;>
      simp only [hs, if_true, if_false] <;>
      refine ⟨by simp [hpl], by simp [hsl], ?_, ?_⟩
    · exact parentInv_set_root d.parent hpi (d.find y) (d.find x)
        (by rw [hpl]; exact hylt) (by rw [hpl]; exact hxlt) hyroot hxroot
        (Ne.symm heq)
    · intro e he
      rcases List.mem_cons.mp he with he1 | he1
      · rw [he1]
        refine ⟨?_, hxlt⟩
        rw [list_getD_default d.parent (d.find x) 0 (d.find x) (by rw [hpl]; exact hxlt)]
        exact hxroot
      · exact hh e he1
    · exact parentInv_set_root d.parent hpi (d.find x) (d.find y)
        (by rw [hpl]; exact hxlt) (by rw [hpl]; exact hylt) hxroot hyroot heq
    · intro e he
      rcases List.mem_cons.mp he with he1 | he1
      · rw [he1]
        refine ⟨?_, hylt⟩
        rw [list_getD_default d.parent (d.find y) 0 (d.find y) (by rw [hpl]; exact hylt)]
        exact hyroot
      · exact hh e he1

/-- Every `union` call pushes exactly one history entry. -/
theorem union_hist (d : DSU) (x y : Nat) :
    ∃ e, (d.union x y).1.history = e :: d.history := by
  by_cases heq : d.find x = d.find y
  · exact ⟨none, by simp only [DSU.union, if_pos heq]⟩
  · simp only [DSU.union, if_neg heq]
    exact ⟨_, rfl⟩

/-- `rollback` on an empty history does nothing. -/
theorem rollback_hist_nil (d : DSU) (hd : d.history = []) : d.rollback = d := by
  unfold DSU.rollback
  rw [hd]

/-- `rollback` of a no-op entry only pops it. -/
theorem rollback_none (d : DSU) (rest : List (Option (Nat × Nat × Int)))
    (hd : d.history = none :: rest) :
    d.rollback = { d with history := rest } := by
  unfold DSU.rollback
  rw [hd]

/-- `rollback` of a merge entry whose absorbed node was a root (the only shape
ever pushed): the parent pointer is reset and the size array is untouched,
because the size-restoring branch requires `old_parent ≠ node`. -/
theorem rollback_some_self (d : DSU) (a : Nat) (c : Int)
    (rest : List (Option (Nat × Nat × Int)))
    (hd : d.history = some (a, a, c) :: rest) :
    d.rollback = { parent := d.parent.set a a, size := d.size, history := rest } := by
  unfold DSU.rollback
  rw [hd]
  simp

/-- `rollback` pops exactly the head entry of a non-empty history. -/
theorem rollback_hist_cons (d : DSU) (e : Option (Nat × Nat × Int))
    (rest : List (Option (Nat × Nat × Int))) (hd : d.history = e :: rest) :
    d.rollback.history = rest := by
  rcases e with _ | ⟨a, b, c⟩
  · rw [rollback_none d rest hd]
  · unfold DSU.rollback
    rw [hd]
    split
    · rename_i heq
      simp at heq
    · rename_i heq
      simp at heq
    · rename_i node oldParent oldSize rest2 heq
      obtain ⟨⟨h1, h2, h3⟩, h4⟩ : (a = node ∧ b = oldParent ∧ c = oldSize) ∧ rest = rest2 := by
        simpa using heq
      subst h4
      split <;>
      · dsimp only
        split <;> rfl

/-- Resetting a position to itself preserves the parent invariant. -/
theorem parentInv_set_self (p : List Nat) (hp : ParentInv p) (a : Nat) :
    ParentInv (p.set a a) := by
  obtain ⟨hr, m, hm⟩ := hp
  constructor
  · intro i hi
    rw [List.length_set] at hi ⊢
    by_cases hia : a = i
    · subst hia
      by_cases ha : a < p.length
      · rw [list_getD_set_self p a a a ha]; exact hi
      · exact absurd hi ha
    · rw [list_getD_set_ne p a i a i hia]
      exact hr i hi
  · refine ⟨m, ?_⟩
    intro i hi hne
    rw [List.length_set] at hi
    by_cases hia : a = i
    · subst hia
      by_cases ha : a < p.length
      · rw [list_getD_set_self p a a a ha] at hne
        exact absurd rfl hne
      · exact absurd hi ha
    · rw [list_getD_set_ne p a i a i hia] at hne ⊢
      exact hm i hi hne

/-- `rollback` preserves the invariant, never changes the size array on an
invariant state, and pops at most the head of the history. -/
theorem rollback_inv (n : Nat) (d : DSU) (h : DSUInv n d) :
    DSUInv n d.rollback ∧ d.rollback.size = d.size := by
  obtain ⟨hpl, hsl, hpi, hh⟩ := h
  rcases hd : d.history with _ | ⟨e, rest⟩
  · rw [rollback_hist_nil d hd]
    exact ⟨⟨hpl, hsl, hpi, hh⟩, rfl⟩
  · rcases e with _ | ⟨a, b, c⟩
    · rw [rollback_none d rest hd]
      refine ⟨⟨hpl, hsl, hpi, ?_⟩, rfl⟩
      intro e he
      exact hh e (by rw [hd]; exact List.mem_cons_of_mem _ he)
    · have hok : HistEntryOK n (some (a, b, c)) :=
        hh _ (by rw [hd]; exact List.mem_cons_self _ _)
      obtain ⟨hb, ha⟩ := hok
      rw [hb] at hd
      rw [rollback_some_self d a c rest hd]
      refine ⟨⟨by simpa using hpl, hsl, parentInv_set_self d.parent hpi a, ?_⟩, rfl⟩
      intro e he
      exact hh e (by rw [hd]; exact List.mem_cons_of_mem _ he)

/-- The loop of `rollback_to` preserves the invariant and the size array. -/
theorem rollbackLoop_inv (n c : Nat) :
    ∀ (f : Nat) (d : DSU), DSUInv n d →
      DSUInv n (rollbackLoop c f d) ∧ (rollbackLoop c f d).size = d.size
  | 0, d, h => ⟨h, rfl⟩
  | f + 1, d, h => by
    show DSUInv n (if c < d.history.length then rollbackLoop c f d.rollback else d) ∧
      (if c < d.history.length then rollbackLoop c f d.rollback else d).size = d.size
    by_cases hc : c < d.history.length
    · rw [if_pos hc]
      obtain ⟨h1, h2⟩ := rollback_inv n d h
      obtain ⟨h3, h4⟩ := rollbackLoop_inv n c f d.rollback h1
      exact ⟨h3, by rw [h4, h2]⟩
    · rw [if_neg hc]
      exact ⟨h, rfl⟩

/-- `rollback_to` preserves the invariant and the size array. -/
theorem rollback_to_inv (n : Nat) (d : DSU) (c : Nat) (h : DSUInv n d) :
    DSUInv n (d.rollback_to c) ∧ (d.rollback_to c).size = d.size :=
  rollbackLoop_inv n c d.history.length d h

/-- `rollback_to` with a checkpoint at or above the history length is the
identity: the loop guard fails immediately. -/
theorem rollback_to_of_le (d : DSU) (c : Nat) (h : d.history.length ≤ c) :
    d.rollback_to c = d := by
  unfold DSU.rollback_to
  rcases hfl : d.history.length with _ | f
  · rfl
  · show (if c < d.history.length then rollbackLoop c f d.rollback else d) = d
    rw [if_neg (by omega)]

/-- `rollback` on a non-empty history removes exactly one entry. -/
theorem rollback_hist_len (d : DSU) (hne : d.history ≠ []) :
    d.rollback.history.length + 1 = d.history.length := by
  rcases hd : d.history with _ | ⟨e, rest⟩
  · exact absurd hd hne
  · simp [rollback_hist_cons d e rest hd, hd]

/-- The `rollback_to` loop, run with enough fuel towards a checkpoint at or
below the current history length, stops exactly at the checkpoint. -/
theorem rollbackLoop_len (c : Nat) :
    ∀ (f : Nat) (d : DSU), d.history.length ≤ f → c ≤ d.history.length →
      (rollbackLoop c f d).history.length = c
  | 0, d, hf, hc => by
    simp only [rollbackLoop]
    omega
  | f + 1, d, hf, hc => by
    show (if c < d.history.length then rollbackLoop c f d.rollback else d).history.length = c
    by_cases hlt : c < d.history.length
    · rw [if_pos hlt]
      have hne : d.history ≠ [] := by
        intro hnil
        rw [hnil] at hlt
        simp at hlt
      have hlen := rollback_hist_len d hne
      exact rollbackLoop_len c f d.rollback (by omega) (by omega)
    · rw [if_neg hlt]
      omega

/-- `rollback_to` with a checkpoint at or below the history length lands
exactly on the checkpoint. -/
theorem rollback_to_len (d : DSU) (c : Nat) (hc : c ≤ d.history.length) :
    (d.rollback_to c).history.length = c :=
  rollbackLoop_len c d.history.length d (le_refl _) hc

/-- Every valid API call preserves the invariant. -/
theorem applyOp_inv (n : Nat) (d : DSU) (op : DOp) (h : DSUInv n d)
    (hv : ValidOp n op) : DSUInv n (applyOp d op) := by
  cases op with
  | uni x y => exact union_inv n d x y h hv.1 hv.2
  | rb => exact (rollback_inv n d h).1
  | rbTo c => exact (rollback_to_inv n d c h).1
  | fnd x => exact h
  | conn x y => exact h

/-- Every valid call sequence preserves the invariant. -/
theorem applyOps_inv (n : Nat) :
    ∀ (l : List DOp) (d : DSU), DSUInv n d → (∀ op ∈ l, ValidOp n op) →
      DSUInv n (applyOps d l)
  | [], d, h, _ => h
  | op :: l, d, h, hv => by
    have h1 : DSUInv n (applyOp d op) :=
      applyOp_inv n d op h (hv op (List.mem_cons_self _ _))
    exact applyOps_inv n l (applyOp d op) h1
      (fun op2 h2 => hv op2 (List.mem_cons_of_mem _ h2))

/-- Every reachable state satisfies the invariant. -/
theorem reachable_inv (n : Nat) (d : DSU) (h : Reachable n d) : DSUInv n d := by
  obtain ⟨l, hv, hl⟩ := h
  rw [← hl]
  exact applyOps_inv n l (DSU.init n) (dsuInv_init n) hv

/-- `connected` only reads the parent array. -/
theorem connected_congr (d1 d2 : DSU) (hp : d1.parent = d2.parent) (x y : Nat) :
    d1.connected x y = d2.connected x y := by
  unfold DSU.connected DSU.find
  rw [hp]

/-- `connected` phrased through the root map. -/
theorem connected_eq (d : DSU) (x y : Nat) :
    d.connected x y = decide (rootOf d.parent x = rootOf d.parent y) :=
  rfl

/-- Writing a root value onto its own position is the identity. -/
theorem list_set_self (l : List Nat) (i : Nat) (h : i < l.length)
    (hroot : l.getD i 0 = i) : l.set i i = l := by
  apply List.ext_getElem (by simp)
  intro k h1 h2
  rw [List.getElem_set]
  by_cases hik : i = k
  · subst hik
    rw [if_pos rfl]
    rw [List.getD_eq_getElem l 0 h] at hroot
    exact hroot.symm
  · rw [if_neg hik]

/-- A merging `union` call connects its two arguments. -/
theorem union_connected_true (n : Nat) (d : DSU) (x y : Nat) (h : DSUInv n d)
    (hx : x < n) (hy : y < n) (hb : (d.union x y).2 = true) :
    (d.union x y).1.connected x y = true := by
  obtain ⟨hxlt, hxroot⟩ := find_root_spec n d h x hx
  obtain ⟨hylt, hyroot⟩ := find_root_spec n d h y hy
  obtain ⟨hpl, hsl, hpi, hh⟩ := h
  by_cases heq : d.find x = d.find y
  · simp only [DSU.union, if_pos heq] at hb
    exact Bool.noConfusion hb
  · simp only [DSU.union, if_neg heq]
    have hxp : x < d.parent.length := by rw [hpl]; exact hx
    have hyp : y < d.parent.length := by rw [hpl]; exact hy
    have hxltp : d.find x < d.parent.length := by rw [hpl]; exact hxlt
    have hyltp : d.find y < d.parent.length := by rw [hpl]; exact hylt
    by_cases hs : d.size.getD (d.find x) 0 < d.size.getD (d.find y) 0 <;>
      simp only [hs, if_true, if_false]
    · have h1 : rootOf (d.parent.set (d.find x) (d.find y)) x = d.find y :=
        rootOf_set_root d.parent hpi (d.find y) (d.find x) hyltp hxltp hyroot
          hxroot (Ne.symm heq) x hxp (Or.inr rfl)
      have h2 : rootOf (d.parent.set (d.find x) (d.find y)) y = d.find y :=
        rootOf_set_root d.parent hpi (d.find y) (d.find x) hyltp hxltp hyroot
          hxroot (Ne.symm heq) y hyp (Or.inl rfl)
      show decide (rootOf (d.parent.set (d.find x) (d.find y)) x =
        rootOf (d.parent.set (d.find x) (d.find y)) y) = true
      rw [h1, h2]
      simp
    · have h1 : rootOf (d.parent.set (d.find y) (d.find x)) x = d.find x :=
        rootOf_set_root d.parent hpi (d.find x) (d.find y) hxltp hyltp hxroot
          hyroot heq x hxp (Or.inl rfl)
      have h2 : rootOf (d.parent.set (d.find y) (d.find x)) y = d.find x :=
        rootOf_set_root d.parent hpi (d.find x) (d.find y) hxltp hyltp hxroot
          hyroot heq y hyp (Or.inr rfl)
      show decide (rootOf (d.parent.set (d.find y) (d.find x)) x =
        rootOf (d.parent.set (d.find y) (d.find x)) y) = true
      rw [h1, h2]
      simp

/-- `rollback` right after any `union` call restores the parent array and the
history exactly (the size array is NOT claimed to be restored). -/
theorem union_rollback (n : Nat) (d : DSU) (x y : Nat) (h : DSUInv n d)
    (hx : x < n) (hy : y < n) :
    ((d.union x y).1.rollback).parent = d.parent ∧
    ((d.union x y).1.rollback).history = d.history := by
  obtain ⟨hxlt, hxroot⟩ := find_root_spec n d h x hx
  obtain ⟨hylt, hyroot⟩ := find_root_spec n d h y hy
  obtain ⟨hpl, hsl, hpi, hh⟩ := h
  have hxltp : d.find x < d.parent.length := by rw [hpl]; exact hxlt
  have hyltp : d.find y < d.parent.length := by rw [hpl]; exact hylt
  by_cases heq : d.find x = d.find y
  · simp only [DSU.union, if_pos heq]
    rw [rollback_none _ d.history rfl]
    exact ⟨rfl, rfl⟩
  · simp only [DSU.union, if_neg heq]
    by_cases hs : d.size.getD (d.find x) 0 < d.size.getD (d.find y) 0 <;>
      simp only [hs, if_true, if_false]
    · have hpd : d.parent.getD (d.find x) 0 = d.find x := by
        rw [list_getD_default d.parent (d.find x) 0 (d.find x) hxltp]
        exact hxroot
      rw [hpd]
      rw [rollback_some_self _ (d.find x) (d.size.getD (d.find y) 0) d.history rfl]
      refine ⟨?_, rfl⟩
      show (d.parent.set (d.find x) (d.find y)).set (d.find x) (d.find x) = d.parent
      rw [List.set_set]
      exact list_set_self d.parent (d.find x) hxltp hpd
    · have hpd : d.parent.getD (d.find y) 0 = d.find y := by
        rw [list_getD_default d.parent (d.find y) 0 (d.find y) hyltp]
        exact hyroot
      rw [hpd]
      rw [rollback_some_self _ (d.find y) (d.size.getD (d.find x) 0) d.history rfl]
      refine ⟨?_, rfl⟩
      show (d.parent.set (d.find y) (d.find x)).set (d.find y) (d.find y) = d.parent
      rw [List.set_set]
      exact list_set_self d.parent (d.find y) hyltp hpd

/-- C6: on every reachable state and in-range pair, a `union` that returns
`true` makes `connected` true, and the single matching `rollback` restores
`connected(x, y)` to its pre-union value. -/
theorem c6_union_rollback_connected (n : Nat) (d : DSU) (h : Reachable n d)
    (x y : Nat) (hx : x < n) (hy : y < n) :
    ((d.union x y).2 = true → (d.union x y).1.connected x y = true) ∧
    (d.union x y).1.rollback.connected x y = d.connected x y := by
  have hInv := reachable_inv n d h
  refine ⟨fun hb => union_connected_true n d x y hInv hx hy hb, ?_⟩
  exact connected_congr _ d (union_rollback n d x y hInv hx hy).1 x y

/-- C6 witness: the theorem instantiated at the freshly constructed 2-element
structure and the pair `(0, 1)`, whose union does merge. -/
theorem c6_witness :
    ((DSU.init 2).union 0 1).1.connected 0 1 = true ∧
    ((DSU.init 2).union 0 1).1.rollback.connected 0 1 =
      (DSU.init 2).connected 0 1 :=
  have h := c6_union_rollback_connected 2 (DSU.init 2)
    ⟨[], fun op hop => absurd hop (List.not_mem_nil op), rfl⟩ 0 1
    (by decide) (by decide)
  ⟨h.1 (by decide), h.2⟩

/-- C10: in every reachable state, every merge entry in the history has
`old_parent = node` (the absorbed element was a root when it was logged), so
the size-restoring branch of `rollback` is never taken and both `rollback`
and `rollback_to` leave the size array unchanged. -/
theorem c10_root_entries_size_unchanged (n : Nat) (d : DSU)
    (h : Reachable n d) :
    (∀ e ∈ d.history, ∀ a b c, e = some (a, b, c) → b = a) ∧
    d.rollback.size = d.size ∧
    ∀ c, (d.rollback_to c).size = d.size := by
  have hInv := reachable_inv n d h
  refine ⟨?_, (rollback_inv n d hInv).2, fun c => (rollback_to_inv n d c hInv).2⟩
  intro e he a b c heq
  have hok := hInv.2.2.2 e he
  rw [heq] at hok
  exact hok.1

/-- C10 witness: the theorem instantiated at the state reached by one merging
union on a fresh 3-element structure, evaluated at checkpoint 0. -/
theorem c10_witness :
    ((DSU.init 3).union 0 1).1.rollback.size = ((DSU.init 3).union 0 1).1.size ∧
    (((DSU.init 3).union 0 1).1.rollback_to 0).size =
      ((DSU.init 3).union 0 1).1.size :=
  have h := c10_root_entries_size_unchanged 3 ((DSU.init 3).union 0 1).1
    ⟨[DOp.uni 0 1],
     fun op hop => by
       rw [List.mem_singleton] at hop
       rw [hop]
       exact ⟨by decide, by decide⟩,
     rfl⟩
  ⟨h.2.1, h.2.2 0⟩

/-- Folding a history-length-monotone step never shrinks the history. -/
theorem foldl_len_mono {α : Type} (g : DSU → α → DSU)
    (hg : ∀ d e, d.history.length ≤ (g d e).history.length) :
    ∀ (es : List α) (d : DSU),
      d.history.length ≤ (es.foldl g d).history.length
  | [], _ => le_refl _
  | e :: es, d => le_trans (hg d e) (foldl_len_mono g hg es (g d e))

/-- `union` grows the history by exactly one entry. -/
theorem union_len (d : DSU) (x y : Nat) :
    (d.union x y).1.history.length = d.history.length + 1 := by
  obtain ⟨e, he⟩ := union_hist d x y
  rw [he]
  simp

/-- `_solve_recursive` restores the history to exactly its length on entry:
the merges of a call are all undone by its final `rollback_to`. -/
theorem solveRec_hist_len (qs : List (Nat × Nat × Nat × Nat)) :
    ∀ (fuel : Nat) (edges : List (Nat × Nat × Nat × Nat)) (qidx : List Nat)
      (dsu : DSU) (lo hi : Nat) (ans : List Bool),
      ((solveRec qs fuel edges qidx dsu lo hi ans).1).history.length =
        dsu.history.length
  | 0, edges, qidx, dsu, lo, hi, ans => rfl
  | fuel + 1, edges, qidx, dsu, lo, hi, ans => by
    by_cases h1 : qidx = []
    · simp only [solveRec, if_pos h1]
    · by_cases h2 : hi - lo = 1
      · simp only [solveRec, if_neg h1, if_pos h2]
      · simp only [solveRec, if_neg h1, if_neg h2]
        rcases hA : solveRec qs fuel
            (edges.filter (fun e => ¬ (e.2.2.1 ≤ lo ∧ (lo + hi) / 2 ≤ e.2.2.2)))
            (qidx.filter (fun qi => (qs.getD qi (0, 0, 0, 0)).2.2.1 < (lo + hi) / 2))
            (edges.foldl
              (fun d e =>
                match e with
                | (u, v, start, stop) =>
                  if start ≤ lo ∧ (lo + hi) / 2 ≤ stop then (d.union u v).1 else d)
              dsu)
            lo ((lo + hi) / 2) ans with ⟨dsu2, ans2⟩
        rcases hB : solveRec qs fuel
            (edges.filter (fun e => ¬ (e.2.2.1 ≤ lo ∧ (lo + hi) / 2 ≤ e.2.2.2)))
            (qidx.filter (fun qi => ¬ ((qs.getD qi (0, 0, 0, 0)).2.2.1 < (lo + hi) / 2)))
            dsu2 ((lo + hi) / 2) hi ans2 with ⟨dsu3, ans3⟩
        have l0 : dsu.history.length ≤
            ((edges.foldl
              (fun d e =>
                match e with
                | (u, v, start, stop) =>
                  if start ≤ lo ∧ (lo + hi) / 2 ≤ stop then (d.union u v).1 else d)
              dsu)).history.length := by
          apply foldl_len_mono
          intro d e
          rcases e with ⟨u, v, start, stop⟩
          by_cases hc : start ≤ lo ∧ (lo + hi) / 2 ≤ stop
          · simp only [if_pos hc, union_len]
            omega
          · simp only [if_neg hc]
            exact le_refl _
        have l1 : dsu2.history.length =
            (edges.foldl
              (fun d e =>
                match e with
                | (u, v, start, stop) =>
                  if start ≤ lo ∧ (lo + hi) / 2 ≤ stop then (d.union u v).1 else d)
              dsu).history.length := by
          have h3 := solveRec_hist_len qs fuel
            (edges.filter (fun e => ¬ (e.2.2.1 ≤ lo ∧ (lo + hi) / 2 ≤ e.2.2.2)))
            (qidx.filter (fun qi => (qs.getD qi (0, 0, 0, 0)).2.2.1 < (lo + hi) / 2))
            (edges.foldl
              (fun d e =>
                match e with
                | (u, v, start, stop) =>
                  if start ≤ lo ∧ (lo + hi) / 2 ≤ stop then (d.union u v).1 else d)
              dsu)
            lo ((lo + hi) / 2) ans
          rw [hA] at h3
          exact h3
        have l2 : dsu3.history.length = dsu2.history.length := by
          have h3 := solveRec_hist_len qs fuel
            (edges.filter (fun e => ¬ (e.2.2.1 ≤ lo ∧ (lo + hi) / 2 ≤ e.2.2.2)))
            (qidx.filter (fun qi => ¬ ((qs.getD qi (0, 0, 0, 0)).2.2.1 < (lo + hi) / 2)))
            dsu2 ((lo + hi) / 2) hi ans2
          rw [hB] at h3
          exact h3
        show (dsu3.rollback_to dsu.get_checkpoint).history.length = dsu.history.length
        rw [rollback_to_len dsu3 dsu.get_checkpoint (by
          show dsu.history.length ≤ dsu3.history.length
          omega)]
        rfl

/-- `solve` returns with an empty history. -/
theorem solve_hist_len (s : ODC) : ((ODC.solve s).1).history.length = 0 := by
  show ((solveRec (getQueries s.operations) s.timelineBound
    (getEdges s.operations) (List.range (getQueries s.operations).length)
    (DSU.init s.n) 0 s.timelineBound
    (List.replicate (getQueries s.operations).length false)).1).history.length = 0
  rw [solveRec_hist_len]
  rfl

/-- C8: every `union` call (merge or no-op) appends exactly one history
entry, and `solve` returns with all merges undone: the final history length
is 0. -/
theorem c8_union_logs_one_solve_balanced :
    (∀ (d : DSU) (x y : Nat), ∃ e, (d.union x y).1.history = e :: d.history) ∧
    (∀ s : ODC, s.operations ≠ [] → ((ODC.solve s).1).history.length = 0) :=
  ⟨union_hist, fun s _ => solve_hist_len s⟩

/-- C8 witness: one union on a fresh structure logs one entry, and the demo
batch ends its solve with an empty history. -/
theorem c8_witness :
    (∃ e, ((DSU.init 2).union 0 1).1.history = e :: (DSU.init 2).history) ∧
    ((ODC.solve demoODC).1).history.length = 0 :=
  ⟨c8_union_logs_one_solve_balanced.1 (DSU.init 2) 0 1,
   c8_union_logs_one_solve_balanced.2 demoODC (by decide)⟩

/-- C7 amended: calling `rollback_to` with a checkpoint strictly greater than
the current history length is a silent no-op — the loop guard fails at once,
the state is returned unchanged, and no error is reported. -/
theorem c7_rollback_to_above_log_noop (d : DSU) (c : Nat)
    (h : d.history.length < c) : d.rollback_to c = d :=
  rollback_to_of_le d c (le_of_lt h)

/-- C7 amended witness. -/
theorem c7_amended_witness : (DSU.init 2).rollback_to 7 = DSU.init 2 :=
  c7_rollback_to_above_log_noop (DSU.init 2) 7 (by decide)

/-- On the fresh structure, `connected` is the equality test. -/
theorem init_connected (n u v : Nat) (hu : u < n) (hv : v < n) :
    (DSU.init n).connected u v = decide (u = v) := by
  rw [connected_eq]
  show decide (rootOf (List.range n) u = rootOf (List.range n) v) = decide (u = v)
  rw [rootOf_root (List.range n) u (list_getD_range n u u hu),
    rootOf_root (List.range n) v (list_getD_range n v v hv)]

/-- Setting a position to `false` keeps an all-false list all-false. -/
theorem mem_set_false (l : List Bool) (i : Nat)
    (h : ∀ b ∈ l, b = false) : ∀ b ∈ l.set i false, b = false := by
  intro b hb
  rcases List.mem_or_eq_of_mem_set hb with h1 | h1
  · exact h b h1
  · exact h1

/-- The base case of `_solve_recursive` writes only `false` answers when the
disjoint set is fresh and every query has distinct in-range endpoints. -/
theorem foldl_answers_false (qs : List (Nat × Nat × Nat × Nat)) (n lo : Nat)
    (hqs : ∀ q ∈ qs, q.1 < n ∧ q.2.1 < n ∧ q.1 ≠ q.2.1) :
    ∀ (idxs : List Nat) (ans : List Bool),
      (∀ qi ∈ idxs, qi < qs.length) → (∀ b ∈ ans, b = false) →
      ∀ b ∈ idxs.foldl
        (fun ans qi =>
          match qs.getD qi (0, 0, 0, 0) with
          | (u, v, t, qid) =>
            if t = lo then ans.set qid ((DSU.init n).connected u v) else ans)
        ans, b = false
  | [], ans, _, hans => hans
  | qi :: idxs, ans, hidx, hans => by
    apply foldl_answers_false qs n lo hqs idxs
    · intro qj hj
      exact hidx qj (List.mem_cons_of_mem _ hj)
    · show ∀ b ∈ (if (qs.getD qi (0, 0, 0, 0)).2.2.1 = lo then
          ans.set (qs.getD qi (0, 0, 0, 0)).2.2.2
            ((DSU.init n).connected (qs.getD qi (0, 0, 0, 0)).1
              (qs.getD qi (0, 0, 0, 0)).2.1)
        else ans), b = false
      by_cases ht : (qs.getD qi (0, 0, 0, 0)).2.2.1 = lo
      · rw [if_pos ht]
        have hlen : qi < qs.length := hidx qi (List.mem_cons_self _ _)
        have hmem : qs.getD qi (0, 0, 0, 0) ∈ qs := by
          rw [List.getD_eq_getElem qs (0, 0, 0, 0) hlen]
          exact List.getElem_mem hlen
        obtain ⟨hu, hv, hne⟩ := hqs _ hmem
        rw [init_connected n _ _ hu hv]
        rw [decide_eq_false hne]
        exact mem_set_false ans _ hans
      · rw [if_neg ht]
        exact hans

/-- Unfolding equation of `_solve_recursive` at a positive fuel. -/
theorem solveRec_succ (qs : List (Nat × Nat × Nat × Nat)) (fuel : Nat)
    (edges : List (Nat × Nat × Nat × Nat)) (qidx : List Nat) (dsu : DSU)
    (lo hi : Nat) (ans : List Bool) :
    solveRec qs (fuel + 1) edges qidx dsu lo hi ans =
      if qidx = [] then
        (dsu, ans)
      else if hi - lo = 1 then
        (dsu,
         qidx.foldl
           (fun a qi =>
             match qs.getD qi (0, 0, 0, 0) with
             | (u, v, t, qid) =>
               if t = lo then a.set qid (dsu.connected u v) else a)
           ans)
      else
        let timeMid := (lo + hi) / 2
        let checkpoint := dsu.get_checkpoint
        let dsu1 := edges.foldl
          (fun d e =>
            match e with
            | (u, v, start, stop) =>
              if start ≤ lo ∧ timeMid ≤ stop then (d.union u v).1 else d)
          dsu
        let leftQueries := qidx.filter
          (fun qi => (qs.getD qi (0, 0, 0, 0)).2.2.1 < timeMid)
        let rightQueries := qidx.filter
          (fun qi => ¬ ((qs.getD qi (0, 0, 0, 0)).2.2.1 < timeMid))
        let leftEdges := edges.filter
          (fun e => ¬ (e.2.2.1 ≤ lo ∧ timeMid ≤ e.2.2.2))
        let rightEdges := edges.filter
          (fun e => ¬ (e.2.2.1 ≤ lo ∧ timeMid ≤ e.2.2.2))
        match solveRec qs fuel leftEdges leftQueries dsu1 lo timeMid ans with
        | (dsu2, ans2) =>
          match solveRec qs fuel rightEdges rightQueries dsu2 timeMid hi ans2 with
          | (dsu3, ans3) => (dsu3.rollback_to checkpoint, ans3) :=
  rfl

/-- With no edge candidates, `_solve_recursive` never touches the fresh
disjoint set and only ever records `false` answers (all queries have distinct
in-range endpoints). -/
theorem solveRec_no_edges (n : Nat) (qs : List (Nat × Nat × Nat × Nat))
    (hqs : ∀ q ∈ qs, q.1 < n ∧ q.2.1 < n ∧ q.1 ≠ q.2.1) :
    ∀ (fuel : Nat) (qidx : List Nat) (lo hi : Nat) (ans : List Bool),
      (∀ qi ∈ qidx, qi < qs.length) →
      (∀ b ∈ ans, b = false) →
      (solveRec qs fuel [] qidx (DSU.init n) lo hi ans).1 = DSU.init n ∧
      ∀ b ∈ (solveRec qs fuel [] qidx (DSU.init n) lo hi ans).2, b = false
  | 0, qidx, lo, hi, ans, _, hans => ⟨rfl, hans⟩
  | fuel + 1, qidx, lo, hi, ans, hidx, hans => by
    by_cases h1 : qidx = []
    · subst h1
      exact ⟨rfl, hans⟩
    · by_cases h2 : hi - lo = 1
      · rw [solveRec_succ, if_neg h1, if_pos h2]
        exact ⟨rfl, foldl_answers_false qs n lo hqs qidx ans hidx hans⟩
      · rw [solveRec_succ, if_neg h1, if_neg h2]
        simp only [List.foldl_nil, List.filter_nil]
        rcases hA : solveRec qs fuel []
            (qidx.filter (fun qi => (qs.getD qi (0, 0, 0, 0)).2.2.1 < (lo + hi) / 2))
            (DSU.init n) lo ((lo + hi) / 2) ans with ⟨dsu2, ans2⟩
        have hA1 : dsu2 = DSU.init n := by
          have h3 := (solveRec_no_edges n qs hqs fuel
            (qidx.filter (fun qi => (qs.getD qi (0, 0, 0, 0)).2.2.1 < (lo + hi) / 2))
            lo ((lo + hi) / 2) ans
            (fun qi hqi => hidx qi (List.mem_filter.mp hqi).1) hans).1
          rw [hA] at h3
          exact h3
        have hA2 : ∀ b ∈ ans2, b = false := by
          have h3 := (solveRec_no_edges n qs hqs fuel
            (qidx.filter (fun qi => (qs.getD qi (0, 0, 0, 0)).2.2.1 < (lo + hi) / 2))
            lo ((lo + hi) / 2) ans
            (fun qi hqi => hidx qi (List.mem_filter.mp hqi).1) hans).2
          rw [hA] at h3
          exact h3
        subst hA1
        rcases hB : solveRec qs fuel []
            (qidx.filter (fun qi => ¬ ((qs.getD qi (0, 0, 0, 0)).2.2.1 < (lo + hi) / 2)))
            (DSU.init n) ((lo + hi) / 2) hi ans2 with ⟨dsu3, ans3⟩
        have hB1 : dsu3 = DSU.init n := by
          have h3 := (solveRec_no_edges n qs hqs fuel
            (qidx.filter (fun qi => ¬ ((qs.getD qi (0, 0, 0, 0)).2.2.1 < (lo + hi) / 2)))
            ((lo + hi) / 2) hi ans2
            (fun qi hqi => hidx qi (List.mem_filter.mp hqi).1) hA2).1
          rw [hB] at h3
          exact h3
        have hB2 : ∀ b ∈ ans3, b = false := by
          have h3 := (solveRec_no_edges n qs hqs fuel
            (qidx.filter (fun qi => ¬ ((qs.getD qi (0, 0, 0, 0)).2.2.1 < (lo + hi) / 2)))
            ((lo + hi) / 2) hi ans2
            (fun qi hqi => hidx qi (List.mem_filter.mp hqi).1) hA2).2
          rw [hB] at h3
          exact h3
        subst hB1
        refine ⟨?_, hB2⟩
        show (DSU.init n).rollback_to (DSU.init n).get_checkpoint = DSU.init n
        exact rollback_to_of_le (DSU.init n) _ (le_refl _)

/-- Every extracted query tuple comes from a registered query operation. -/
theorem mem_getQueries (ops : List ODCOp) (q : Nat × Nat × Nat × Nat)
    (h : q ∈ getQueries ops) :
    ODCOp.query q.1 q.2.1 q.2.2.1 q.2.2.2 ∈ ops := by
  rcases q with ⟨qu, qv, qt, qq⟩
  unfold getQueries at h
  rw [List.mem_filterMap] at h
  obtain ⟨op, hop, heq⟩ := h
  cases op with
  | edge u v a b => simp at heq
  | query u v t qid =>
    obtain ⟨h1, h2, h3, h4⟩ : u = qu ∧ v = qv ∧ t = qt ∧ qid = qq := by
      simpa using heq
    subst h1
    subst h2
    subst h3
    subst h4
    exact hop

/-- A batch whose operations are all queries extracts no edges. -/
theorem getEdges_nil (ops : List ODCOp) (h : ∀ op ∈ ops, op.isQuery = true) :
    getEdges ops = [] := by
  induction ops with
  | nil => rfl
  | cons op ops ih =>
    cases op with
    | edge u v a b =>
      have h2 := h _ (List.mem_cons_self _ _)
      simp [ODCOp.isQuery] at h2
    | query u v t q =>
      show getEdges ops = []
      exact ih (fun op2 h2 => h op2 (List.mem_cons_of_mem _ h2))

/-- C9 amended: on a batch with zero edges and at least one query, where every
query has distinct in-range endpoints, `solve` answers every query `false`
(self-queries `u = v` are answered `true` by the code, hence the endpoint
restriction). -/
theorem c9_no_edges_all_false (s : ODC)
    (_honequery : ∃ op ∈ s.operations, op.isQuery = true)
    (hnoe : ∀ op ∈ s.operations, op.isQuery = true)
    (hq : ∀ op ∈ s.operations, queryOK s.n op = true) :
    ∀ b ∈ (ODC.solve s).2, b = false := by
  show ∀ b ∈ (solveRec (getQueries s.operations) s.timelineBound
    (getEdges s.operations) (List.range (getQueries s.operations).length)
    (DSU.init s.n) 0 s.timelineBound
    (List.replicate (getQueries s.operations).length false)).2, b = false
  rw [getEdges_nil s.operations hnoe]
  refine (solveRec_no_edges s.n (getQueries s.operations) ?_ s.timelineBound
    (List.range (getQueries s.operations).length) 0 s.timelineBound
    (List.replicate (getQueries s.operations).length false) ?_ ?_).2
  · intro q hmem
    have hop := mem_getQueries s.operations q hmem
    have hok := hq _ hop
    obtain ⟨⟨hu, hv⟩, hd⟩ : (q.1 < s.n ∧ q.2.1 < s.n) ∧ ¬ q.1 = q.2.1 := by
      simpa [queryOK] using hok
    exact ⟨hu, hv, hd⟩
  · intro qi hqi
    exact List.mem_range.mp hqi
  · intro b hb
    exact List.eq_of_mem_replicate hb

/-- C9 amended witness: the two-node batch with the single query `(0, 1, 0)`
and no edges — its one recorded answer is `false`. -/
theorem c9_amended_witness :
    (ODC.solve ((ODC.mk0 2).add_query 0 1 0)).2.getD 0 true = false :=
  c9_no_edges_all_false ((ODC.mk0 2).add_query 0 1 0)
    (by decide) (by decide) (by decide)
    ((ODC.solve ((ODC.mk0 2).add_query 0 1 0)).2.getD 0 true)
    (by decide)
